import Mathlib

set_option maxRecDepth 40000

/-!
Shallow embedding of `src/vocab_processor.c`.

Bytes are modelled as `Nat` (the value of the `unsigned char` / the `int`
returned by `fgetc`); C strings are modelled as `List Nat` of their bytes
(C strings are NUL-terminated, so the list never contains `0`; every string
the program builds consists of ASCII letters only).  Machine arithmetic on
`unsigned long` (64-bit) is `Nat` with an explicit `% 2 ^ 64`.
-/

/-- C library tolower from ctype.h in the default locale: maps `A`-`Z`
(bytes 65..90) to `a`-`z` (add 32), leaves every other byte unchanged. -/
def tolower (c : Nat) : Nat := if 65 ≤ c ∧ c ≤ 90 then c + 32 else c

/-- C library isalpha from ctype.h in the default locale: true exactly on the
ASCII letters `A`-`Z` (65..90) and `a`-`z` (97..122). -/
def isalpha (c : Nat) : Bool :=
  decide (65 ≤ c ∧ c ≤ 90) || decide (97 ≤ c ∧ c ≤ 122)

/-- A C string of byte values. -/
abbrev Word := List Nat

/-- Byte list of an ASCII Lean string literal (used for concrete inputs). -/
def str (s : String) : Word := s.toList.map Char.toNat

/-- POSIX strcasecmp returning 0: the byte-by-byte scan comparing `tolower` of
corresponding bytes succeeds exactly when both strings end together with all
lowered bytes equal. -/
def strcaseEq : Word → Word → Bool
  | [], [] => true
  | a :: as, b :: bs => tolower a == tolower b && strcaseEq as bs
  | _, _ => false

/-- Modulus of unsigned long arithmetic (64-bit). -/
def U64 : Nat := 2 ^ 64

/-- Function hash_string (vocab_processor.c:39): djb2 over the lowered bytes,
`hash = hash * 33 + tolower(c)` starting from 5381, with `unsigned long`
(64-bit) wraparound. -/
def hash_string (w : Word) : Nat :=
  w.foldl (fun h c => (h * 33 + tolower c) % U64) 5381

/-- The hash table (vocab_processor.c:20): a bucket count and, for each
index, the bucket's linked list front-to-back.  Indices `≥ size` are never
populated. -/
structure HashTable where
  size : Nat
  buckets : Nat → List Word

/-- Function create_hash_table (vocab_processor.c:56): all buckets start empty
(`calloc` zeroes the `Node*` array). -/
def create_hash_table (n : Nat) : HashTable := ⟨n, fun _ => []⟩

def HASH_TABLE_SIZE : Nat := 16384
def MIN_WORD_LENGTH : Nat := 4
def MAX_WORD_LENGTH : Nat := 64

/-- Bucket index hash_string(word) % table->size (vocab_processor.c:76). -/
def bucketIndex (t : HashTable) (w : Word) : Nat := hash_string w % t.size

/-- The scan of a bucket's list for a case-insensitive match
(vocab_processor.c:79-85). -/
def containsCaseless (l : List Word) (w : Word) : Bool :=
  l.any fun x => strcaseEq x w

/-- Function insert_word (vocab_processor.c:74): if a case-insensitive match is in
the word's bucket, return unchanged; otherwise link a new node holding the
word at the FRONT of that bucket's list. -/
def insert_word (t : HashTable) (w : Word) : HashTable :=
  let idx := bucketIndex t w
  if containsCaseless (t.buckets idx) w then t
  else ⟨t.size, fun i => if i = idx then w :: t.buckets idx else t.buckets i⟩

/-- The unlink loop of `remove_word` (vocab_processor.c:116-131): walk the
list and splice out the first case-insensitive match, if any. -/
def removeFirstCaseless : List Word → Word → List Word
  | [], _ => []
  | x :: xs, w => if strcaseEq x w then xs else x :: removeFirstCaseless xs w

/-- Function remove_word (vocab_processor.c:109). -/
def remove_word (t : HashTable) (w : Word) : HashTable :=
  let idx := bucketIndex t w
  ⟨t.size, fun i => if i = idx then removeFirstCaseless (t.buckets idx) w
                    else t.buckets i⟩

/-- Function print_table (vocab_processor.c:138): the sequence of words printed —
buckets in index order `0 .. size-1`, each bucket's list front-to-back. -/
def enumerate (t : HashTable) : List Word :=
  ((List.range t.size).map t.buckets).flatten

/-- Enum ProcessMode (vocab_processor.c:26). -/
inductive ProcessMode
  | MODE_ADD
  | MODE_REMOVE
deriving DecidableEq

open ProcessMode

/-- Dispatch on the mode (vocab_processor.c:198-202). -/
def applyToken (mode : ProcessMode) (t : HashTable) (w : Word) : HashTable :=
  match mode with
  | MODE_ADD => insert_word t w
  | MODE_REMOVE => remove_word t w

/-- One alphabetic character appended to the pending buffer
(vocab_processor.c:189-192): stored lowered, and only while
`char_index < MAX_WORD_LENGTH - 1`. -/
def pushChar (buf : Word) (c : Nat) : Word :=
  if buf.length < MAX_WORD_LENGTH - 1 then buf ++ [tolower c] else buf

/-- The delimiter / end-of-input flush (vocab_processor.c:195-203,
210-218) as the list of words it hands to insert_word / remove_word:
one word when `char_index > 0` and `strlen ≥ MIN_WORD_LENGTH`, none
otherwise.  `strlen(word_buffer) = char_index` because only (lowered)
letters, never NUL, are stored. -/
def flushTokens (buf : Word) : List Word :=
  if 0 < buf.length then
    (if MIN_WORD_LENGTH ≤ buf.length then [buf] else [])
  else []

/-- The fgetc loop of `process_file` (vocab_processor.c:187-219) with the
calls to insert_word / remove_word replaced by emitting the word: the
exact sequence of tokens the loop hands to the table, in order. -/
def tokenizeAux : Word → List Nat → List Word
  | buf, [] => flushTokens buf
  | buf, c :: cs =>
    if isalpha c then tokenizeAux (pushChar buf c) cs
    else flushTokens buf ++ tokenizeAux [] cs

/-- Token stream of a whole input (buffer starts empty,
`char_index = 0`). -/
def tokenize (input : List Nat) : List Word := tokenizeAux [] input

/-- The delimiter / end-of-input flush applied to the table
(vocab_processor.c:195-203 and 210-218 verbatim: the nested
`char_index > 0` and `strlen >= MIN_WORD_LENGTH` tests). -/
def applyFlush (mode : ProcessMode) (buf : Word) (t : HashTable) : HashTable :=
  if 0 < buf.length then
    (if MIN_WORD_LENGTH ≤ buf.length then applyToken mode t buf else t)
  else t

/-- The fgetc loop of `process_file` (vocab_processor.c:187-219) as it
stands in the source: tokens are applied to the table the moment they are
flushed. -/
def processAux (mode : ProcessMode) : List Nat → Word → HashTable → HashTable
  | [], buf, t => applyFlush mode buf t
  | c :: cs, buf, t =>
    if isalpha c then processAux mode cs (pushChar buf c) t
    else processAux mode cs [] (applyFlush mode buf t)

/-- Function process_file (vocab_processor.c:175) on an already-opened input,
modelled on the file's byte contents. -/
def process_file (input : List Nat) (t : HashTable) (mode : ProcessMode) :
    HashTable :=
  processAux mode input [] t

/-- Function main (vocab_processor.c:226) after argument validation: build the
vocabulary from the source file, remove each exclusion file's tokens, and
return the printed listing. -/
def run_main (source : List Nat) (exclusions : List (List Nat)) : List Word :=
  let vocabulary := create_hash_table HASH_TABLE_SIZE
  let vocabulary := process_file source vocabulary MODE_ADD
  let vocabulary := exclusions.foldl
    (fun t e => process_file e t MODE_REMOVE) vocabulary
  enumerate vocabulary

/-- Function insert_word again (vocab_processor.c:74-102), with the outcomes
of the two allocations (`malloc` of the node at line 88, `strdup` of the word
at line 93) made explicit.  The second component records whether a failure
was reported via `perror`; on either failure the function returns with the
table untouched (the node from a successful `malloc` is freed when `strdup`
fails), and the process keeps running. -/
def insert_word_alloc (t : HashTable) (w : Word) (okNode okStr : Bool) :
    HashTable × Bool :=
  let idx := bucketIndex t w
  if containsCaseless (t.buckets idx) w then (t, false)
  else if okNode = false then (t, true)
  else if okStr = false then (t, true)
  else (⟨t.size, fun i => if i = idx then w :: t.buckets idx else t.buckets i⟩,
        false)

/-- A sequence of insert / remove calls applied in order. -/
def applyOps (ops : List (ProcessMode × Word)) (t : HashTable) : HashTable :=
  ops.foldl (fun t p => applyToken p.1 t p.2) t

/-- Invariant: every word stored in a meaningful bucket is in the bucket its
hash maps to. -/
def InvariantW (t : HashTable) : Prop :=
  ∀ i < t.size, ∀ w ∈ t.buckets i, hash_string w % t.size = i

/-- Invariant: within each bucket, entries are pairwise distinct under the
case-insensitive comparison. -/
def InvariantU (t : HashTable) : Prop :=
  ∀ i, (t.buckets i).Pairwise (fun a b => strcaseEq a b = false)

/-- The hash table invariant maintained by insert_word and remove_word. -/
def Invariant (t : HashTable) : Prop := InvariantW t ∧ InvariantU t

/-- Maximal runs of consecutive alphabetic characters of an input, in order
of occurrence (used to state the specification's description of the
tokenizer; not part of the C code). -/
def alphaRuns : List Nat → List (List Nat)
  | [] => []
  | c :: cs =>
    if isalpha c then
      (c :: cs.takeWhile isalpha) :: alphaRuns (cs.dropWhile isalpha)
    else alphaRuns cs
termination_by l => l.length
decreasing_by
  all_goals simp only [List.length_cons]
  · exact Nat.lt_succ_of_le (List.dropWhile_sublist isalpha).length_le
  · exact Nat.lt_succ_self _

/-- Modelled from the specification's words (spec section 4.2 and the claim):
the tokens of an input are exactly its maximal runs of ASCII alphabetic
characters, in order, each case-folded to lowercase and truncated to the
configured maximum length (`MAX_WORD_LENGTH - 1 = 63`), kept only if the
post-truncation length is at least the configured minimum
(`MIN_WORD_LENGTH = 4`). -/
def tokensSpec (input : List Nat) : List Word :=
  ((alphaRuns input).map
      (fun r => (r.map tolower).take (MAX_WORD_LENGTH - 1))).filter
    (fun w => decide (MIN_WORD_LENGTH ≤ w.length))

/-! Helper lemmas about the case-insensitive comparison. -/

theorem strcaseEq_iff_map (a b : Word) :
    strcaseEq a b = true ↔ a.map tolower = b.map tolower := by
  induction a generalizing b with
  | nil => cases b <;> simp [strcaseEq]
  | cons x xs ih =>
    cases b with
    | nil => simp [strcaseEq]
    | cons y ys => simp [strcaseEq, ih]

theorem strcaseEq_refl (w : Word) : strcaseEq w w = true :=
  (strcaseEq_iff_map w w).mpr rfl

theorem strcaseEq_symm {a b : Word} (h : strcaseEq a b = true) :
    strcaseEq b a = true :=
  (strcaseEq_iff_map b a).mpr ((strcaseEq_iff_map a b).mp h).symm

theorem strcaseEq_trans {a b c : Word} (hab : strcaseEq a b = true)
    (hbc : strcaseEq b c = true) : strcaseEq a c = true :=
  (strcaseEq_iff_map a c).mpr
    (((strcaseEq_iff_map a b).mp hab).trans ((strcaseEq_iff_map b c).mp hbc))

/-! Helper lemmas about the hash function. -/

theorem hash_foldl_congr (a b : Word) (hmap : a.map tolower = b.map tolower) :
    ∀ h : Nat, a.foldl (fun h c => (h * 33 + tolower c) % U64) h
      = b.foldl (fun h c => (h * 33 + tolower c) % U64) h := by
  induction a generalizing b with
  | nil => cases b with
    | nil => intro h; rfl
    | cons y ys => exact absurd hmap (by simp)
  | cons x xs ih =>
    cases b with
    | nil => exact absurd hmap (by simp)
    | cons y ys =>
      intro h
      simp only [List.map_cons, List.cons.injEq] at hmap
      simp only [List.foldl_cons, hmap.1]
      exact ih ys hmap.2 _

theorem hash_congr {a b : Word} (h : strcaseEq a b = true) :
    hash_string a = hash_string b :=
  hash_foldl_congr a b ((strcaseEq_iff_map a b).mp h) 5381

/-- C4: strings that are equal under the case-insensitive comparison hash to
equal values, hence to the same bucket index for every bucket count. -/
theorem c4_hash_caseless_congruence (a b : Word)
    (h : strcaseEq a b = true) :
    hash_string a = hash_string b ∧
      ∀ n : Nat, hash_string a % n = hash_string b % n := by
  refine ⟨hash_congr h, fun n => ?_⟩
  rw [hash_congr h]

/-- Witness for C4 at the concrete pair "Apple" / "aPPLE". -/
theorem c4_hash_caseless_congruence_check :
    strcaseEq (str "Apple") (str "aPPLE") = true ∧
      hash_string (str "Apple") = hash_string (str "aPPLE") :=
  ⟨by decide, (c4_hash_caseless_congruence (str "Apple") (str "aPPLE")
    (by decide)).1⟩

/-! Helper lemmas about the table operations. -/

theorem insert_of_contains {t : HashTable} {w : Word}
    (h : containsCaseless (t.buckets (bucketIndex t w)) w = true) :
    insert_word t w = t := by
  unfold insert_word
  simp [h]

theorem insert_of_not_contains {t : HashTable} {w : Word}
    (h : containsCaseless (t.buckets (bucketIndex t w)) w = false) :
    insert_word t w =
      ⟨t.size, fun i => if i = bucketIndex t w
        then w :: t.buckets (bucketIndex t w) else t.buckets i⟩ := by
  unfold insert_word
  simp [h]

theorem remove_eq (t : HashTable) (w : Word) :
    remove_word t w =
      ⟨t.size, fun i => if i = bucketIndex t w
        then removeFirstCaseless (t.buckets (bucketIndex t w)) w
        else t.buckets i⟩ := rfl

theorem size_insert (t : HashTable) (w : Word) :
    (insert_word t w).size = t.size := by
  by_cases h : containsCaseless (t.buckets (bucketIndex t w)) w = true
  · rw [insert_of_contains h]
  · rw [insert_of_not_contains (Bool.not_eq_true _ ▸ h)]

theorem size_remove (t : HashTable) (w : Word) :
    (remove_word t w).size = t.size := rfl

theorem insert_buckets_ne (t : HashTable) (w : Word) {j : Nat}
    (hj : j ≠ bucketIndex t w) :
    (insert_word t w).buckets j = t.buckets j := by
  by_cases h : containsCaseless (t.buckets (bucketIndex t w)) w = true
  · rw [insert_of_contains h]
  · rw [insert_of_not_contains (Bool.not_eq_true _ ▸ h)]
    simp [hj]

theorem remove_buckets_ne (t : HashTable) (w : Word) {j : Nat}
    (hj : j ≠ bucketIndex t w) :
    (remove_word t w).buckets j = t.buckets j := by
  rw [remove_eq]
  simp [hj]

theorem hashtable_ext {t : HashTable} {n : Nat} {f : Nat → List Word}
    (hs : t.size = n) (hb : ∀ i, t.buckets i = f i) :
    t = ⟨n, f⟩ := by
  cases t with
  | mk s b =>
    simp only [HashTable.mk.injEq]
    exact ⟨hs, funext hb⟩

/-! Helper lemmas about the bucket scan and the unlink loop. -/

theorem containsCaseless_false_iff (l : List Word) (w : Word) :
    containsCaseless l w = false ↔ ∀ x ∈ l, strcaseEq x w = false := by
  simp [containsCaseless, List.any_eq_false]

theorem containsCaseless_true_iff (l : List Word) (w : Word) :
    containsCaseless l w = true ↔ ∃ x ∈ l, strcaseEq x w = true := by
  simp [containsCaseless, List.any_eq_true]

theorem removeFirstCaseless_sublist (l : List Word) (w : Word) :
    List.Sublist (removeFirstCaseless l w) l := by
  induction l with
  | nil => exact List.Sublist.refl []
  | cons x xs ih =>
    unfold removeFirstCaseless
    split
    · exact List.Sublist.cons x (List.Sublist.refl xs)
    · exact List.Sublist.cons₂ x ih

theorem removeFirstCaseless_of_no_match {l : List Word} {w : Word}
    (h : ∀ x ∈ l, strcaseEq x w = false) : removeFirstCaseless l w = l := by
  induction l with
  | nil => rfl
  | cons x xs ih =>
    unfold removeFirstCaseless
    rw [if_neg (by simp [h x (List.mem_cons_self x xs)])]
    rw [ih (fun y hy => h y (List.mem_cons_of_mem x hy))]

theorem removeFirstCaseless_cases (l : List Word) (w : Word) :
    removeFirstCaseless l w = l ∨
      ∃ l1 m l2, l = l1 ++ m :: l2 ∧ strcaseEq m w = true ∧
        (∀ x ∈ l1, strcaseEq x w = false) ∧
        removeFirstCaseless l w = l1 ++ l2 := by
  induction l with
  | nil => exact Or.inl rfl
  | cons x xs ih =>
    by_cases hx : strcaseEq x w = true
    · refine Or.inr ⟨[], x, xs, by simp, hx, by simp, ?_⟩
      unfold removeFirstCaseless
      simp [hx]
    · have hx' : strcaseEq x w = false := by
        cases hb : strcaseEq x w
        · rfl
        · exact absurd hb hx
      rcases ih with hsame | ⟨l1, m, l2, hsplit, hm, hpre, hres⟩
      · refine Or.inl ?_
        unfold removeFirstCaseless
        simp [hx', hsame]
      · refine Or.inr ⟨x :: l1, m, l2, by simp [hsplit], hm, ?_, ?_⟩
        · intro y hy
          rcases List.mem_cons.mp hy with rfl | hy'
          · exact hx'
          · exact hpre y hy'
        · unfold removeFirstCaseless
          simp [hx', hres]

theorem mem_enumerate {x : Word} {t : HashTable} :
    x ∈ enumerate t ↔ ∃ i < t.size, x ∈ t.buckets i := by
  simp [enumerate, List.mem_flatten, List.mem_map, List.mem_range]

theorem flatten_map_range_zero (f : Nat → List Word) :
    ∀ n, (∀ i < n, f i = []) → ((List.range n).map f).flatten = [] := by
  intro n
  induction n with
  | zero => intro _; rfl
  | succ m ih =>
    intro h0
    rw [List.range_succ, List.map_append, List.flatten_append,
      ih (fun i hi => h0 i (Nat.lt_succ_of_lt hi)),
      List.map_singleton, h0 m (Nat.lt_succ_self m)]
    rfl

theorem flatten_map_range_one (f : Nat → List Word) (a : Nat) (u : List Word)
    (hfa : f a = u) :
    ∀ n, a < n → (∀ i < n, i ≠ a → f i = []) →
      ((List.range n).map f).flatten = u := by
  intro n
  induction n with
  | zero => intro han; exact absurd han (Nat.not_lt_zero a)
  | succ m ih =>
    intro han h0
    rw [List.range_succ, List.map_append, List.flatten_append]
    by_cases hm : a = m
    · rw [flatten_map_range_zero f m
        (fun i hi => h0 i (Nat.lt_succ_of_lt hi) (by omega))]
      subst hm
      simp [hfa]
    · have ham : a < m := by omega
      rw [ih ham (fun i hi hne => h0 i (Nat.lt_succ_of_lt hi) hne)]
      have hfm : f m = [] := h0 m (Nat.lt_succ_self m) (by omega)
      simp [hfm]

theorem flatten_map_range_two (f : Nat → List Word) (a b : Nat)
    (u v : List Word) (hab : a < b) (hfa : f a = u) (hfb : f b = v) :
    ∀ n, b < n → (∀ i < n, i ≠ a → i ≠ b → f i = []) →
      ((List.range n).map f).flatten = u ++ v := by
  intro n
  induction n with
  | zero => intro hbn; exact absurd hbn (Nat.not_lt_zero b)
  | succ m ih =>
    intro hbn h0
    rw [List.range_succ, List.map_append, List.flatten_append]
    by_cases hm : b = m
    · rw [flatten_map_range_one f a u hfa m (hm ▸ hab)
        (fun i hi hne => h0 i (Nat.lt_succ_of_lt hi) hne (by omega))]
      simp [hm ▸ hfb]
    · have hbm : b < m := by omega
      rw [ih hbm (fun i hi h1 h2 => h0 i (Nat.lt_succ_of_lt hi) h1 h2)]
      have hfm : f m = [] := h0 m (Nat.lt_succ_self m) (by omega) (by omega)
      simp [hfm]

theorem removeFirstCaseless_clears {l : List Word} {w : Word}
    (hp : l.Pairwise (fun a b => strcaseEq a b = false)) :
    ∀ x ∈ removeFirstCaseless l w, strcaseEq x w = false := by
  induction l with
  | nil => intro x hx; cases hx
  | cons y ys ih =>
    rcases List.pairwise_cons.mp hp with ⟨hy, hys⟩
    intro x hx
    unfold removeFirstCaseless at hx
    by_cases hmatch : strcaseEq y w = true
    · rw [if_pos hmatch] at hx
      cases hb : strcaseEq x w
      · rfl
      · exact absurd (hy x hx)
          (by simp [strcaseEq_symm (strcaseEq_trans hb (strcaseEq_symm hmatch))])
    · rw [if_neg hmatch] at hx
      rcases List.mem_cons.mp hx with rfl | hx'
      · cases hb : strcaseEq x w
        · rfl
        · exact absurd hb hmatch
      · exact ih hys x hx'

/-! Invariant preservation. -/

theorem inv_create (n : Nat) : Invariant (create_hash_table n) := by
  constructor
  · intro i _ w hw
    simp [create_hash_table] at hw
  · intro i
    exact List.Pairwise.nil

theorem inv_insert {t : HashTable} (hinv : Invariant t) (w : Word) :
    Invariant (insert_word t w) := by
  by_cases hc : containsCaseless (t.buckets (bucketIndex t w)) w = true
  · rw [insert_of_contains hc]
    exact hinv
  · have hc' : containsCaseless (t.buckets (bucketIndex t w)) w = false :=
      Bool.not_eq_true _ ▸ hc
    rw [insert_of_not_contains hc']
    obtain ⟨hW, hU⟩ := hinv
    constructor
    · intro i hi v hv
      dsimp only at hv hi ⊢
      by_cases hidx : i = bucketIndex t w
      · subst hidx
        rw [if_pos rfl] at hv
        rcases List.mem_cons.mp hv with rfl | hv'
        · rfl
        · exact hW _ hi v hv'
      · rw [if_neg hidx] at hv
        exact hW i hi v hv
    · intro i
      dsimp only
      by_cases hidx : i = bucketIndex t w
      · rw [if_pos hidx]
        refine List.pairwise_cons.mpr ⟨?_, hU _⟩
        intro x hx
        have hxw : strcaseEq x w = false :=
          (containsCaseless_false_iff _ _).mp hc' x hx
        cases hb : strcaseEq w x
        · rfl
        · exact absurd (strcaseEq_symm hb) (by simp [hxw])
      · rw [if_neg hidx]
        exact hU i

theorem inv_remove {t : HashTable} (hinv : Invariant t) (w : Word) :
    Invariant (remove_word t w) := by
  rw [remove_eq]
  obtain ⟨hW, hU⟩ := hinv
  constructor
  · intro i hi v hv
    dsimp only at hv hi ⊢
    by_cases hidx : i = bucketIndex t w
    · subst hidx
      rw [if_pos rfl] at hv
      exact hW _ hi v ((removeFirstCaseless_sublist _ _).subset hv)
    · rw [if_neg hidx] at hv
      exact hW i hi v hv
  · intro i
    dsimp only
    by_cases hidx : i = bucketIndex t w
    · rw [if_pos hidx]
      exact (hU _).sublist (removeFirstCaseless_sublist _ _)
    · rw [if_neg hidx]
      exact hU i

theorem inv_applyOps (ops : List (ProcessMode × Word)) :
    ∀ t : HashTable, Invariant t → Invariant (applyOps ops t) := by
  induction ops with
  | nil => intro t h; exact h
  | cons p rest ih =>
    intro t h
    show Invariant (applyOps rest (applyToken p.1 t p.2))
    cases p.1 with
    | MODE_ADD => exact ih _ (inv_insert h p.2)
    | MODE_REMOVE => exact ih _ (inv_remove h p.2)

theorem enumerate_pairwise {t : HashTable} (hinv : Invariant t) :
    (enumerate t).Pairwise (fun a b => strcaseEq a b = false) := by
  obtain ⟨hW, hU⟩ := hinv
  refine List.pairwise_flatten.mpr ⟨?_, ?_⟩
  · intro l hl
    rcases List.mem_map.mp hl with ⟨i, _, rfl⟩
    exact hU i
  · refine List.pairwise_map.mpr ?_
    refine (List.pairwise_lt_range t.size).imp_of_mem ?_
    intro i j hi hj hij x hx y hy
    cases hb : strcaseEq x y
    · rfl
    · exfalso
      have hxi : hash_string x % t.size = i :=
        hW i (List.mem_range.mp hi) x hx
      have hyj : hash_string y % t.size = j :=
        hW j (List.mem_range.mp hj) y hy
      rw [hash_congr hb] at hxi
      omega

/-- C2: starting from an empty table, any sequence of insert and remove
operations maintains the set invariant: no two stored entries are equal
under the case-insensitive comparison (across all buckets, hence also at
most once within any bucket), and every stored word sits only in the bucket
its hash maps to. -/
theorem c2_invariant_preserved (ops : List (ProcessMode × Word)) (n : Nat) :
    (enumerate (applyOps ops (create_hash_table n))).Pairwise
        (fun a b => strcaseEq a b = false) ∧
      InvariantW (applyOps ops (create_hash_table n)) ∧
      InvariantU (applyOps ops (create_hash_table n)) := by
  have hinv := inv_applyOps ops _ (inv_create n)
  exact ⟨enumerate_pairwise hinv, hinv.1, hinv.2⟩

/-! The tokenizer: bridging the interleaved loop, the emitted token stream,
and the specification's run-based description. -/

theorem flushTokens_foldl (mode : ProcessMode) (buf : Word) (t : HashTable) :
    (flushTokens buf).foldl (applyToken mode) t = applyFlush mode buf t := by
  unfold flushTokens applyFlush
  by_cases h0 : 0 < buf.length
  · rw [if_pos h0, if_pos h0]
    by_cases h4 : MIN_WORD_LENGTH ≤ buf.length
    · rw [if_pos h4, if_pos h4]
      rfl
    · rw [if_neg h4, if_neg h4]
      rfl
  · rw [if_neg h0, if_neg h0]
    rfl

theorem processAux_eq_foldl (mode : ProcessMode) :
    ∀ (l : List Nat) (buf : Word) (t : HashTable),
      processAux mode l buf t
        = (tokenizeAux buf l).foldl (applyToken mode) t := by
  intro l
  induction l with
  | nil =>
    intro buf t
    exact (flushTokens_foldl mode buf t).symm
  | cons c cs ih =>
    intro buf t
    simp only [processAux, tokenizeAux]
    by_cases hc : isalpha c = true
    · rw [if_pos hc, if_pos hc]
      exact ih _ _
    · rw [if_neg hc, if_neg hc, List.foldl_append, flushTokens_foldl]
      exact ih _ _

theorem pushChar_take (buf : Word) (c : Nat) (rest : List Nat)
    (hle : buf.length ≤ MAX_WORD_LENGTH - 1) :
    (pushChar buf c ++ rest).take (MAX_WORD_LENGTH - 1)
      = (buf ++ tolower c :: rest).take (MAX_WORD_LENGTH - 1) := by
  unfold pushChar
  split
  · rw [List.append_assoc, List.singleton_append]
  · have hlen : MAX_WORD_LENGTH - 1 ≤ buf.length := by omega
    rw [List.take_append_of_le_length hlen, List.take_append_of_le_length hlen]

theorem spec_head_nil (cs : List Nat) :
    (((([] : Word) ++ (cs.takeWhile isalpha).map tolower).take
          (MAX_WORD_LENGTH - 1))
        :: (alphaRuns (cs.dropWhile isalpha)).map
            (fun r => (r.map tolower).take (MAX_WORD_LENGTH - 1))).filter
      (fun w => decide (MIN_WORD_LENGTH ≤ w.length))
    = tokensSpec cs := by
  have hmin : (decide (MIN_WORD_LENGTH ≤ ([] : Word).length)) = false := by
    decide
  cases cs with
  | nil =>
    simp [tokensSpec, alphaRuns, List.filter_cons, hmin]
    decide
  | cons d ds =>
    by_cases hd : isalpha d = true
    · simp only [tokensSpec, alphaRuns, List.takeWhile_cons, List.dropWhile_cons,
        hd, if_pos, List.nil_append, List.map_cons]
    · simp only [tokensSpec, alphaRuns, List.takeWhile_cons, List.dropWhile_cons,
        hd, if_neg, Bool.false_eq_true, if_false, List.map_nil, List.nil_append,
        List.take_nil, List.filter_cons, hmin]

theorem tokenizeAux_eq_spec :
    ∀ (l : List Nat) (buf : Word), buf.length ≤ MAX_WORD_LENGTH - 1 →
      tokenizeAux buf l =
        (((buf ++ (l.takeWhile isalpha).map tolower).take (MAX_WORD_LENGTH - 1))
            :: (alphaRuns (l.dropWhile isalpha)).map
                (fun r => (r.map tolower).take (MAX_WORD_LENGTH - 1))).filter
          (fun w => decide (MIN_WORD_LENGTH ≤ w.length)) := by
  intro l
  induction l with
  | nil =>
    intro buf hle
    simp only [tokenizeAux, List.takeWhile_nil, List.map_nil, List.append_nil,
      List.dropWhile_nil, alphaRuns, List.take_of_length_le hle,
      List.filter_cons]
    unfold flushTokens
    by_cases h4 : MIN_WORD_LENGTH ≤ buf.length
    · rw [if_pos (Nat.lt_of_lt_of_le (by decide) h4), if_pos h4]
      simp [h4]
    · have h4' : (decide (MIN_WORD_LENGTH ≤ List.length buf)) = false := by
        simpa using h4
      rw [h4']
      by_cases h0 : 0 < buf.length
      · rw [if_pos h0, if_neg h4]
        simp
      · rw [if_neg h0]
        simp
  | cons c cs ih =>
    intro buf hle
    by_cases hc : isalpha c = true
    · have hlen : (pushChar buf c).length ≤ MAX_WORD_LENGTH - 1 := by
        unfold pushChar
        split
        · simp only [List.length_append, List.length_singleton]
          omega
        · exact hle
      simp only [tokenizeAux, if_pos hc]
      rw [ih _ hlen]
      simp only [List.takeWhile_cons, List.dropWhile_cons, hc, if_pos,
        List.map_cons]
      rw [pushChar_take buf c _ hle]
    · simp only [tokenizeAux, if_neg hc]
      rw [ih [] (by simp), spec_head_nil]
      simp only [List.takeWhile_cons, List.dropWhile_cons, hc,
        Bool.false_eq_true, if_false, List.map_nil, List.append_nil,
        List.take_of_length_le hle]
      have hruns : alphaRuns (c :: cs) = alphaRuns cs := by
        simp only [alphaRuns]
        rw [if_neg hc]
      rw [hruns, tokensSpec, List.filter_cons]
      by_cases h4 : MIN_WORD_LENGTH ≤ buf.length
      · have h4' : (decide (MIN_WORD_LENGTH ≤ List.length buf)) = true := by
          simpa using h4
        rw [h4']
        unfold flushTokens
        rw [if_pos (Nat.lt_of_lt_of_le (by decide) h4), if_pos h4,
          List.singleton_append]
        simp
      · have h4' : (decide (MIN_WORD_LENGTH ≤ List.length buf)) = false := by
          simpa using h4
        rw [h4']
        unfold flushTokens
        by_cases h0 : 0 < buf.length
        · rw [if_pos h0, if_neg h4]
          simp
        · rw [if_neg h0]
          simp

theorem tokenize_eq_tokensSpec (input : List Nat) :
    tokenize input = tokensSpec input := by
  unfold tokenize
  rw [tokenizeAux_eq_spec input [] (by simp)]
  exact spec_head_nil input

/-- C3: the tokens the processing loop feeds to insert or remove are exactly
the maximal runs of ASCII alphabetic characters of the input, in order, each
lowered and truncated to MAX_WORD_LENGTH - 1 = 63 characters, kept only when
the post-truncation length reaches MIN_WORD_LENGTH = 4; and the loop's
effect on the table is the fold of insert / remove over that token list. -/
theorem c3_tokenization (input : List Nat) (mode : ProcessMode)
    (t : HashTable) :
    tokenize input = tokensSpec input ∧
      process_file input t mode = (tokenize input).foldl (applyToken mode) t :=
  ⟨tokenize_eq_tokensSpec input, processAux_eq_foldl mode input [] t⟩

/-! Insert idempotence. -/

theorem insert_insert_caseless {t : HashTable} {w v : Word}
    (h : strcaseEq w v = true) :
    insert_word (insert_word t w) v = insert_word t w := by
  have hhash : hash_string v = hash_string w := hash_congr (strcaseEq_symm h)
  have hidx : bucketIndex (insert_word t w) v = bucketIndex t w := by
    unfold bucketIndex
    rw [size_insert, hhash]
  have hcont : containsCaseless
      ((insert_word t w).buckets (bucketIndex (insert_word t w) v)) v
        = true := by
    rw [hidx]
    by_cases hc : containsCaseless (t.buckets (bucketIndex t w)) w = true
    · rw [insert_of_contains hc]
      rcases (containsCaseless_true_iff _ _).mp hc with ⟨x, hx, hxw⟩
      exact (containsCaseless_true_iff _ _).mpr ⟨x, hx, strcaseEq_trans hxw h⟩
    · rw [insert_of_not_contains (Bool.not_eq_true _ ▸ hc)]
      dsimp only
      rw [if_pos rfl]
      exact (containsCaseless_true_iff _ _).mpr
        ⟨w, List.mem_cons_self w _, h⟩
  exact insert_of_contains hcont

/-- C5: inserting a word and then any case variant of it changes nothing the
second time: the resulting table (hence its enumerable content) is the one
after the first insert. -/
theorem c5_insert_idempotent (t : HashTable) (w v : Word)
    (h : strcaseEq w v = true) :
    insert_word (insert_word t w) v = insert_word t w ∧
      enumerate (insert_word (insert_word t w) v)
        = enumerate (insert_word t w) := by
  refine ⟨insert_insert_caseless h, ?_⟩
  rw [insert_insert_caseless h]

/-- Witness for C5 at a concrete table and case variant. -/
theorem c5_insert_idempotent_check :
    strcaseEq (str "Data") (str "DATA") = true ∧
      insert_word (insert_word (create_hash_table HASH_TABLE_SIZE)
          (str "Data")) (str "DATA")
        = insert_word (create_hash_table HASH_TABLE_SIZE) (str "Data") :=
  ⟨by decide,
   (c5_insert_idempotent (create_hash_table HASH_TABLE_SIZE) (str "Data")
      (str "DATA") (by decide)).1⟩

/-- C9: insert and remove touch only the bucket the word hashes to; inside
that bucket, insert either leaves the list unchanged or adds the one new
node in front of it, and remove either leaves it unchanged or unlinks
exactly one matching node, keeping all other entries in relative order. -/
theorem c9_frame (t : HashTable) (w : Word) :
    (∀ j, j ≠ bucketIndex t w →
        (insert_word t w).buckets j = t.buckets j ∧
          (remove_word t w).buckets j = t.buckets j) ∧
      ((insert_word t w).buckets (bucketIndex t w)
          = t.buckets (bucketIndex t w) ∨
        (insert_word t w).buckets (bucketIndex t w)
          = w :: t.buckets (bucketIndex t w)) ∧
      ((remove_word t w).buckets (bucketIndex t w)
          = t.buckets (bucketIndex t w) ∨
        ∃ l1 m l2, t.buckets (bucketIndex t w) = l1 ++ m :: l2 ∧
          strcaseEq m w = true ∧ (∀ x ∈ l1, strcaseEq x w = false) ∧
          (remove_word t w).buckets (bucketIndex t w) = l1 ++ l2) := by
  refine ⟨fun j hj => ⟨insert_buckets_ne t w hj, remove_buckets_ne t w hj⟩,
    ?_, ?_⟩
  · by_cases hc : containsCaseless (t.buckets (bucketIndex t w)) w = true
    · exact Or.inl (by rw [insert_of_contains hc])
    · refine Or.inr ?_
      rw [insert_of_not_contains (Bool.not_eq_true _ ▸ hc)]
      dsimp only
      rw [if_pos rfl]
  · have hrm : (remove_word t w).buckets (bucketIndex t w)
        = removeFirstCaseless (t.buckets (bucketIndex t w)) w := by
      rw [remove_eq]
      dsimp only
      rw [if_pos rfl]
    rcases removeFirstCaseless_cases (t.buckets (bucketIndex t w)) w with
      hsame | ⟨l1, m, l2, hsplit, hm, hpre, hres⟩
    · exact Or.inl (by rw [hrm, hsame])
    · exact Or.inr ⟨l1, m, l2, hsplit, hm, hpre, by rw [hrm, hres]⟩

/-- Witness for C9: bucket 0 (which "word" does not hash to) is untouched by
insert and remove on an empty table. -/
theorem c9_frame_check :
    (0 ≠ bucketIndex (create_hash_table HASH_TABLE_SIZE) (str "word")) ∧
      (insert_word (create_hash_table HASH_TABLE_SIZE) (str "word")).buckets 0
        = (create_hash_table HASH_TABLE_SIZE).buckets 0 ∧
      (remove_word (create_hash_table HASH_TABLE_SIZE) (str "word")).buckets 0
        = (create_hash_table HASH_TABLE_SIZE).buckets 0 :=
  ⟨by decide,
   ((c9_frame (create_hash_table HASH_TABLE_SIZE) (str "word")).1 0
      (by decide)).1,
   ((c9_frame (create_hash_table HASH_TABLE_SIZE) (str "word")).1 0
      (by decide)).2⟩

/-- C8: when either allocation inside insert fails, the table is returned
exactly as it was, the failure is reported, and the function (hence the
run) continues; with both allocations succeeding the model coincides with
insert_word. -/
theorem c8_alloc_failure_atomic (t : HashTable) (w : Word) (okN okS : Bool)
    (hfail : okN = false ∨ okS = false) :
    (insert_word_alloc t w okN okS).1 = t ∧
      (containsCaseless (t.buckets (bucketIndex t w)) w = false →
        (insert_word_alloc t w okN okS).2 = true) ∧
      (insert_word_alloc t w true true).1 = insert_word t w := by
  simp only [insert_word_alloc, insert_word]
  by_cases hc : containsCaseless (t.buckets (bucketIndex t w)) w = true
  · rw [if_pos hc, if_pos hc, if_pos hc]
    exact ⟨rfl, fun hfalse => absurd hc (by simp [hfalse]), rfl⟩
  · have hc' : containsCaseless (t.buckets (bucketIndex t w)) w = false :=
      Bool.not_eq_true _ ▸ hc
    rw [hc']
    rw [if_neg Bool.false_ne_true, if_neg Bool.false_ne_true,
      if_neg Bool.false_ne_true]
    refine ⟨?_, fun _ => ?_, by simp⟩ <;>
      (rcases hfail with h | h
       · simp [h]
       · by_cases hn : okN = false
         · simp [hn]
         · simp [hn, h])

/-- Witness for C8: with the node allocation failing on an empty table, the
table is unchanged and the failure is reported. -/
theorem c8_alloc_failure_atomic_check :
    (insert_word_alloc (create_hash_table HASH_TABLE_SIZE) (str "node")
        false true).1 = create_hash_table HASH_TABLE_SIZE ∧
      (insert_word_alloc (create_hash_table HASH_TABLE_SIZE) (str "node")
        false true).2 = true :=
  ⟨(c8_alloc_failure_atomic (create_hash_table HASH_TABLE_SIZE) (str "node")
      false true (Or.inl rfl)).1,
   (c8_alloc_failure_atomic (create_hash_table HASH_TABLE_SIZE) (str "node")
      false true (Or.inl rfl)).2.1 (by decide)⟩

theorem enumerate_create (n : Nat) : enumerate (create_hash_table n) = [] :=
  flatten_map_range_zero _ n (fun _ _ => rfl)

/-- C6: on any table satisfying the invariant, inserting "Apple" and then
removing "apple" leaves no entry case-insensitively equal to "apple";
remove unlinks at most one entry of the target bucket; and removing a word
with no case-insensitive match in the set changes nothing. -/
theorem c6_case_insensitive_removal (t : HashTable) (w : Word)
    (hpos : 0 < t.size) (hinv : Invariant t)
    (hno : ∀ x ∈ enumerate t, strcaseEq x w = false) :
    (∀ x ∈ enumerate (remove_word (insert_word t (str "Apple"))
        (str "apple")), strcaseEq x (str "apple") = false) ∧
      (∀ v : Word,
        (remove_word t v).buckets (bucketIndex t v)
            = t.buckets (bucketIndex t v) ∨
          ∃ l1 m l2, t.buckets (bucketIndex t v) = l1 ++ m :: l2 ∧
            strcaseEq m v = true ∧
            (remove_word t v).buckets (bucketIndex t v) = l1 ++ l2) ∧
      remove_word t w = t := by
  refine ⟨?_, ?_, ?_⟩
  · intro x hx
    have hinv' : Invariant (insert_word t (str "Apple")) :=
      inv_insert hinv (str "Apple")
    rcases mem_enumerate.mp hx with ⟨j, hj, hxj⟩
    rw [size_remove] at hj
    by_cases hjidx :
        j = bucketIndex (insert_word t (str "Apple")) (str "apple")
    · subst hjidx
      rw [remove_eq] at hxj
      dsimp only at hxj
      rw [if_pos rfl] at hxj
      exact removeFirstCaseless_clears (hinv'.2 _) x hxj
    · rw [remove_buckets_ne _ _ hjidx] at hxj
      cases hb : strcaseEq x (str "apple")
      · rfl
      · exfalso
        apply hjidx
        rw [← hinv'.1 j hj x hxj]
        unfold bucketIndex
        rw [hash_congr hb]
  · intro v
    rcases removeFirstCaseless_cases (t.buckets (bucketIndex t v)) v with
      hsame | ⟨l1, m, l2, hsplit, hm, _, hres⟩
    · refine Or.inl ?_
      rw [remove_eq]
      dsimp only
      rw [if_pos rfl, hsame]
    · refine Or.inr ⟨l1, m, l2, hsplit, hm, ?_⟩
      rw [remove_eq]
      dsimp only
      rw [if_pos rfl, hres]
  · have hb : ∀ x ∈ t.buckets (bucketIndex t w), strcaseEq x w = false :=
      fun x hx => hno x
        (mem_enumerate.mpr ⟨bucketIndex t w, Nat.mod_lt _ hpos, hx⟩)
    rw [remove_eq, removeFirstCaseless_of_no_match hb]
    refine (hashtable_ext rfl fun i => ?_).symm
    by_cases hi : i = bucketIndex t w
    · rw [if_pos hi, hi]
    · rw [if_neg hi]

/-- Witness for C6 on the empty table with the never-present word "zzzz". -/
theorem c6_case_insensitive_removal_check :
    remove_word (create_hash_table HASH_TABLE_SIZE) (str "zzzz")
        = create_hash_table HASH_TABLE_SIZE ∧
      (∀ x ∈ enumerate (remove_word
          (insert_word (create_hash_table HASH_TABLE_SIZE) (str "Apple"))
          (str "apple")), strcaseEq x (str "apple") = false) :=
  have h := c6_case_insensitive_removal (create_hash_table HASH_TABLE_SIZE)
    (str "zzzz") (by decide) (inv_create HASH_TABLE_SIZE)
    (fun x hx => absurd (enumerate_create HASH_TABLE_SIZE ▸ hx)
      (List.not_mem_nil x))
  ⟨h.2.2, h.1⟩

/-! Truncation of overlong runs. -/

theorem tokenize_all_alpha (r : List Nat) (hall : ∀ c ∈ r, isalpha c = true)
    (hlen : MAX_WORD_LENGTH - 1 ≤ r.length) :
    tokenize r = [(r.map tolower).take (MAX_WORD_LENGTH - 1)] := by
  have hne : r ≠ [] := by
    intro h
    rw [h] at hlen
    simp only [List.length_nil, Nat.le_zero] at hlen
    exact absurd hlen (by decide)
  have hruns : alphaRuns r = [r] := by
    cases r with
    | nil => exact absurd rfl hne
    | cons c cs =>
      have hc : isalpha c = true := hall c (List.mem_cons_self _ _)
      have htake : cs.takeWhile isalpha = cs :=
        List.takeWhile_eq_self_iff.mpr
          (fun x hx => hall x (List.mem_cons_of_mem c hx))
      have hdrop : cs.dropWhile isalpha = [] :=
        List.dropWhile_eq_nil_iff.mpr
          (fun x hx => hall x (List.mem_cons_of_mem c hx))
      simp only [alphaRuns, if_pos hc, htake, hdrop]
  rw [tokenize_eq_tokensSpec, tokensSpec, hruns]
  have hminlen : MIN_WORD_LENGTH
      ≤ ((r.map tolower).take (MAX_WORD_LENGTH - 1)).length := by
    rw [List.length_take, List.length_map, Nat.min_eq_left hlen]
    decide
  simp only [List.map_cons, List.map_nil, List.filter_cons, List.filter_nil]
  rw [if_pos (by simpa using hminlen)]

/-- C10: two all-alphabetic runs of length at least 63 that agree
case-insensitively on their first 63 characters produce the identical token
(the lowercase of those first 63 characters), so inserting both adds a
single set member. -/
theorem c10_truncation_collapse (r1 r2 : List Nat)
    (h1 : ∀ c ∈ r1, isalpha c = true) (h2 : ∀ c ∈ r2, isalpha c = true)
    (hl1 : MAX_WORD_LENGTH - 1 ≤ r1.length)
    (hl2 : MAX_WORD_LENGTH - 1 ≤ r2.length)
    (hagree : strcaseEq (r1.take (MAX_WORD_LENGTH - 1))
      (r2.take (MAX_WORD_LENGTH - 1)) = true) :
    tokenize r1 = [(r1.map tolower).take (MAX_WORD_LENGTH - 1)] ∧
      tokenize r1 = tokenize r2 ∧
      ∀ t : HashTable,
        insert_word
            (insert_word t ((r1.map tolower).take (MAX_WORD_LENGTH - 1)))
            ((r2.map tolower).take (MAX_WORD_LENGTH - 1))
          = insert_word t ((r1.map tolower).take (MAX_WORD_LENGTH - 1)) := by
  have htok : (r1.map tolower).take (MAX_WORD_LENGTH - 1)
      = (r2.map tolower).take (MAX_WORD_LENGTH - 1) := by
    rw [← List.map_take, ← List.map_take]
    exact (strcaseEq_iff_map _ _).mp hagree
  refine ⟨tokenize_all_alpha r1 h1 hl1, ?_, ?_⟩
  · rw [tokenize_all_alpha r1 h1 hl1, tokenize_all_alpha r2 h2 hl2, htok]
  · intro t
    rw [← htok]
    exact insert_insert_caseless (strcaseEq_refl _)

/-- Witness for C10 on a 64-letter run and a 64-letter run differing only in
their 64th character. -/
theorem c10_truncation_collapse_check :
    tokenize (List.replicate 64 97)
        = tokenize (List.replicate 63 97 ++ [98]) ∧
      tokenize (List.replicate 64 97)
        = [((List.replicate 64 97).map tolower).take (MAX_WORD_LENGTH - 1)] :=
  have h := c10_truncation_collapse (List.replicate 64 97)
    (List.replicate 63 97 ++ [98]) (by decide) (by decide) (by decide)
    (by decide) (by decide)
  ⟨h.2.1, h.1⟩

/-! Enumeration order and the end-to-end run. -/

/-- Counterexample for C7: "aaaa" and "apbq" hash to the same bucket
(10697 of 16384); inserting "aaaa" first and "apbq" second enumerates as
["apbq", "aaaa"], the reverse of insertion order, because insert links the
new node at the front of the bucket's list. -/
theorem c7_enumeration_order_cex :
    enumerate (insert_word (insert_word (create_hash_table HASH_TABLE_SIZE)
        (str "aaaa")) (str "apbq"))
      = [str "apbq", str "aaaa"] ∧
      enumerate (insert_word (insert_word (create_hash_table HASH_TABLE_SIZE)
        (str "aaaa")) (str "apbq"))
      ≠ [str "aaaa", str "apbq"] ∧
      bucketIndex (create_hash_table HASH_TABLE_SIZE) (str "aaaa")
        = bucketIndex (create_hash_table HASH_TABLE_SIZE) (str "apbq") := by
  have htbl : insert_word (insert_word (create_hash_table HASH_TABLE_SIZE)
      (str "aaaa")) (str "apbq")
      = ⟨16384, fun i => if i = 10697 then [str "apbq", str "aaaa"]
          else if i = 10697 then [str "aaaa"] else []⟩ := by rfl
  have henum : enumerate (insert_word (insert_word
      (create_hash_table HASH_TABLE_SIZE) (str "aaaa")) (str "apbq"))
      = [str "apbq", str "aaaa"] := by
    rw [htbl]
    unfold enumerate
    exact flatten_map_range_one _ 10697 [str "apbq", str "aaaa"] rfl 16384
      (by decide) (fun i _ hne => by simp [hne])
  refine ⟨henum, ?_, by decide⟩
  rw [henum]
  decide

/-- C7 (amended): enumeration still visits buckets in index order 0..N-1,
but within a bucket entries appear in REVERSE insertion order: insert links
the new node at the front of its bucket's list, and remove keeps the
surviving entries' relative order (each bucket stays a sublist of what it
was). -/
theorem c7_enumeration_order_amended (t : HashTable) (w : Word)
    (hnew : containsCaseless (t.buckets (bucketIndex t w)) w = false) :
    enumerate t = ((List.range t.size).map t.buckets).flatten ∧
      (insert_word t w).buckets (bucketIndex t w)
        = w :: t.buckets (bucketIndex t w) ∧
      ∀ j, List.Sublist ((remove_word t w).buckets j) (t.buckets j) := by
  refine ⟨rfl, ?_, ?_⟩
  · rw [insert_of_not_contains hnew]
    dsimp only
    rw [if_pos rfl]
  · intro j
    by_cases hj : j = bucketIndex t w
    · subst hj
      rw [remove_eq]
      dsimp only
      rw [if_pos rfl]
      exact removeFirstCaseless_sublist _ _
    · rw [remove_buckets_ne t w hj]

/-- Witness for C7 (amended) on the empty table and the word "quux". -/
theorem c7_enumeration_order_amended_check :
    (insert_word (create_hash_table HASH_TABLE_SIZE) (str "quux")).buckets
        (bucketIndex (create_hash_table HASH_TABLE_SIZE) (str "quux"))
      = str "quux" :: (create_hash_table HASH_TABLE_SIZE).buckets
          (bucketIndex (create_hash_table HASH_TABLE_SIZE) (str "quux")) :=
  (c7_enumeration_order_amended (create_hash_table HASH_TABLE_SIZE)
    (str "quux") (by decide)).2.1

/-- C1: processing the source text "alpha beta gamma alpha" in add mode and
the exclusion text "BETA" in remove mode (minimum word length 4) leaves a
set whose whole enumeration is the two words "alpha" and "gamma" — here in
bucket order: "gamma" (bucket 10984) before "alpha" (bucket 11307), the
duplicate collapsed and "BETA" matched case-insensitively. -/
theorem c1_set_difference :
    run_main (str "alpha beta gamma alpha") [str "BETA"]
      = [str "gamma", str "alpha"] := by
  have htbl : process_file (str "BETA")
      (process_file (str "alpha beta gamma alpha")
        (create_hash_table HASH_TABLE_SIZE) MODE_ADD) MODE_REMOVE
      = ⟨16384, fun i =>
          if i = 2465 then []
          else if i = 10984 then [str "gamma"]
          else if i = 2465 then [str "beta"]
          else if i = 11307 then [str "alpha"]
          else []⟩ := by rfl
  show enumerate (process_file (str "BETA")
    (process_file (str "alpha beta gamma alpha")
      (create_hash_table HASH_TABLE_SIZE) MODE_ADD) MODE_REMOVE) = _
  rw [htbl]
  unfold enumerate
  exact flatten_map_range_two _ 10984 11307 [str "gamma"] [str "alpha"]
    (by decide) rfl rfl 16384 (by decide)
    (fun i _ h1 h2 => by
      by_cases h : i = 2465
      · simp [h]
      · simp [h, h1, h2])
